import Mathlib

/-!
# Verification of pyosmium's `FileProcessor` and `zip_processors`

Shallow embedding of `src/osmium/file_processor.py`.  The data model covers
the five OSM record types, the composite merge key `(type-rank, id)` with its
sentinel `(100, 0)`, the per-stream merge cursor `_CompIter`, the merge loop of
`zip_processors`, and the configuration state of `FileProcessor` together with
its iteration pipeline.  External collaborators (the libosmium handler chain,
the area assembler, the buffer iterator) are modelled from the spec where the
Python source only names them; every such definition is marked
`Modelled from the spec:` in its doc comment.
-/

/-- The five OSM record types.  In the source a record reports its type via
`type_str()` returning one of the characters n, w, r, a, c. -/
inductive OSMType where
  | node
  | way
  | relation
  | area
  | changeset
deriving DecidableEq, Repr

/-- The `TID` dictionary of `zip_processors`:
`TID = {'n': 0, 'w': 1, 'r': 2, 'a': 3, 'c': 4}`. -/
def TID : OSMType → Nat
  | .node => 0
  | .way => 1
  | .relation => 2
  | .area => 3
  | .changeset => 4

/-- An OSM record as far as the core is concerned: its type tag and integer
id.  `payload` stands for all remaining data (tags, geometry, version) so
that two records with the same key can still be distinguished. -/
structure OSMObject where
  otype : OSMType
  id : Int
  payload : Nat
deriving DecidableEq, Repr

/-- The composite key `(TID[obj.type_str()], obj.id)` used by
`zip_processors` for cross-stream comparison; compared lexicographically
exactly like a Python 2-tuple. -/
abbrev CompKey := Nat × Int

/-- The key of a record, as computed in `_CompIter.next`:
`(TID[self.current.type_str()], self.current.id)`. -/
def keyOf (o : OSMObject) : CompKey := (TID o.otype, o.id)

/-- The end-of-file marker of `zip_processors`: `(100, 0)`, larger than any
real key because every real type rank is at most 4. -/
def sentinel : CompKey := (100, 0)

/-- Python's `<` on 2-tuples: strict lexicographic comparison. -/
def keyLt (a b : CompKey) : Bool :=
  decide (a.1 < b.1 ∨ (a.1 = b.1 ∧ a.2 < b.2))

/-- Python's binary `min` on keys: keeps the left argument on ties, replaces
it only when the right argument is strictly smaller. -/
def keyMin (a b : CompKey) : CompKey :=
  if keyLt b a then b else a

/-- The per-stream cursor `_CompIter` of `zip_processors`.  `rest` is what the
underlying iterator has not produced yet, `current` the last fetched record
(`None` after exhaustion), `comp` its composite key (the sentinel after
exhaustion). -/
structure CompIter where
  rest : List OSMObject
  current : Option OSMObject
  comp : CompKey
deriving DecidableEq, Repr

/-- The advancing step in `_CompIter.next`'s body: fetch
`next(self.iter, None)` and recompute `self.comp`, using the sentinel at end
of stream. -/
def CompIter.load : List OSMObject → CompIter
  | [] => ⟨[], none, sentinel⟩
  | x :: r => ⟨r, some x, keyOf x⟩

/-- A cursor after `_CompIter.__init__` followed by the one unconditional
first advance (the initial `i.next(None)` always advances because
`self.comp == None == nextid` at that point). -/
def CompIter.init (xs : List OSMObject) : CompIter := CompIter.load xs

/-- Method `_CompIter.next(nextid)` for an already initialised cursor:
advance if and only if `self.comp == nextid`, otherwise return unchanged. -/
def CompIter.advance (c : CompIter) (nextid : CompKey) : CompIter :=
  if c.comp = nextid then CompIter.load c.rest else c

/-- Method `_CompIter.val(nextid)`: the current record if its key is
`nextid`, otherwise `None`. -/
def CompIter.val (c : CompIter) (nextid : CompKey) : Option OSMObject :=
  if c.comp = nextid then c.current else none

/-- The records a cursor still owes: its current record followed by the
unread rest of its stream. -/
def CompIter.streamRem (c : CompIter) : List OSMObject :=
  (match c.current with
   | some o => [o]
   | none => []) ++ c.rest

/-- The expression `min(i.next(...) for i in iters)` once every cursor has
advanced: Python's `min`, which raises on an empty argument — modelled by
`none`. -/
def minComp (its : List CompIter) : Option CompKey :=
  match its.map CompIter.comp with
  | [] => none
  | k :: ks => some (ks.foldl keyMin k)

/-- Termination measure for the merge loop: unread records plus one for a
cursor that has not yet reached the sentinel. -/
def cMeasure (c : CompIter) : Nat :=
  c.rest.length + (if c.comp.1 < 100 then 1 else 0)

/-- Total measure over all cursors. -/
def totalMeasure (its : List CompIter) : Nat :=
  (its.map cMeasure).sum

/-- The merge loop of `zip_processors`: with every cursor already advanced
once, repeatedly take the minimum key over all cursors, stop when its rank
reaches 100 (the sentinel), otherwise yield the materialised tuple
`[i.val(nextid) for i in iters]` and advance the matching cursors. -/
def zipRun (its : List CompIter) : List (List (Option OSMObject)) :=
  match h : minComp its with
  | none => []
  | some nextid =>
    if h2 : nextid.1 < 100 then
      (its.map (fun c => c.val nextid)) ::
        zipRun (its.map (fun c => c.advance nextid))
    else []
termination_by totalMeasure its
decreasing_by
  have hmem : ∃ c ∈ its, c.comp = nextid := by
    have hfold : ∀ (a : CompKey) (l : List CompKey), l.foldl keyMin a ∈ a :: l := by
      intro a l
      induction l generalizing a with
      | nil => simp
      | cons b t ih =>
        rw [List.foldl_cons]
        have h3 := ih (keyMin a b)
        rcases List.mem_cons.mp h3 with h4 | h4
        · rw [h4]
          unfold keyMin
          split <;> simp
        · simp [h4]
    unfold minComp at h
    cases hits : its with
    | nil => rw [hits] at h; simp at h
    | cons c0 cs =>
      rw [hits] at h
      simp only [List.map_cons, Option.some.injEq] at h
      have h5 := hfold c0.comp (cs.map CompIter.comp)
      rw [h] at h5
      rcases List.mem_cons.mp h5 with h6 | h6
      · exact ⟨c0, List.mem_cons_self _ _, h6.symm⟩
      · obtain ⟨c, hc, hck⟩ := List.mem_map.mp h6
        exact ⟨c, List.mem_cons_of_mem _ hc, hck⟩
  obtain ⟨c0, hc0, hck⟩ := hmem
  have hle : ∀ c : CompIter, cMeasure (c.advance nextid) ≤ cMeasure c := by
    intro c
    unfold CompIter.advance
    split
    · cases hr : c.rest with
      | nil => simp [CompIter.load, cMeasure, sentinel]
      | cons x r =>
        simp only [CompIter.load, cMeasure, hr, List.length_cons]
        split <;> split <;> omega
    · exact Nat.le_refl _
  have hlt : cMeasure (c0.advance nextid) < cMeasure c0 := by
    unfold CompIter.advance
    rw [if_pos hck]
    cases hr : c0.rest with
    | nil => simp [CompIter.load, cMeasure, hr, hck, h2, sentinel]
    | cons x r =>
      have hx : (keyOf x).1 < 100 := by
        cases x with
        | mk t i p => cases t <;> simp [keyOf, TID]
      simp [CompIter.load, cMeasure, hr, hck, h2, hx]
  have hsum : ∀ l : List CompIter, c0 ∈ l →
      ((l.map (fun c => c.advance nextid)).map cMeasure).sum <
        (l.map cMeasure).sum := by
    intro l hl
    induction l with
    | nil => simp at hl
    | cons b t ih =>
      simp only [List.map_cons, List.sum_cons]
      rcases List.mem_cons.mp hl with rfl | hl2
      · have h7 : ((t.map (fun c => c.advance nextid)).map cMeasure).sum ≤
            (t.map cMeasure).sum := by
          rw [List.map_map]
          exact List.sum_le_sum (fun i _ => hle i)
        omega
      · have h8 := ih hl2
        have h9 := hle b
        omega
  exact hsum its hc0

/-- The merge loop instrumented with the key of every yielded tuple; used to
state and prove the correctness properties of `zipRun`. -/
def zipRunK (its : List CompIter) : List (CompKey × List (Option OSMObject)) :=
  match h : minComp its with
  | none => []
  | some nextid =>
    if h2 : nextid.1 < 100 then
      (nextid, its.map (fun c => c.val nextid)) ::
        zipRunK (its.map (fun c => c.advance nextid))
    else []
termination_by totalMeasure its
decreasing_by
  have hmem : ∃ c ∈ its, c.comp = nextid := by
    have hfold : ∀ (a : CompKey) (l : List CompKey), l.foldl keyMin a ∈ a :: l := by
      intro a l
      induction l generalizing a with
      | nil => simp
      | cons b t ih =>
        rw [List.foldl_cons]
        have h3 := ih (keyMin a b)
        rcases List.mem_cons.mp h3 with h4 | h4
        · rw [h4]
          unfold keyMin
          split <;> simp
        · simp [h4]
    unfold minComp at h
    cases hits : its with
    | nil => rw [hits] at h; simp at h
    | cons c0 cs =>
      rw [hits] at h
      simp only [List.map_cons, Option.some.injEq] at h
      have h5 := hfold c0.comp (cs.map CompIter.comp)
      rw [h] at h5
      rcases List.mem_cons.mp h5 with h6 | h6
      · exact ⟨c0, List.mem_cons_self _ _, h6.symm⟩
      · obtain ⟨c, hc, hck⟩ := List.mem_map.mp h6
        exact ⟨c, List.mem_cons_of_mem _ hc, hck⟩
  obtain ⟨c0, hc0, hck⟩ := hmem
  have hle : ∀ c : CompIter, cMeasure (c.advance nextid) ≤ cMeasure c := by
    intro c
    unfold CompIter.advance
    split
    · cases hr : c.rest with
      | nil => simp [CompIter.load, cMeasure, sentinel]
      | cons x r =>
        simp only [CompIter.load, cMeasure, hr, List.length_cons]
        split <;> split <;> omega
    · exact Nat.le_refl _
  have hlt : cMeasure (c0.advance nextid) < cMeasure c0 := by
    unfold CompIter.advance
    rw [if_pos hck]
    cases hr : c0.rest with
    | nil => simp [CompIter.load, cMeasure, hr, hck, h2, sentinel]
    | cons x r =>
      have hx : (keyOf x).1 < 100 := by
        cases x with
        | mk t i p => cases t <;> simp [keyOf, TID]
      simp [CompIter.load, cMeasure, hr, hck, h2, hx]
  have hsum : ∀ l : List CompIter, c0 ∈ l →
      ((l.map (fun c => c.advance nextid)).map cMeasure).sum <
        (l.map cMeasure).sum := by
    intro l hl
    induction l with
    | nil => simp at hl
    | cons b t ih =>
      simp only [List.map_cons, List.sum_cons]
      rcases List.mem_cons.mp hl with rfl | hl2
      · have h7 : ((t.map (fun c => c.advance nextid)).map cMeasure).sum ≤
            (t.map cMeasure).sum := by
          rw [List.map_map]
          exact List.sum_le_sum (fun i _ => hle i)
        omega
      · have h8 := ih hl2
        have h9 := hle b
        omega
  exact hsum its hc0

/-- The error message Python's `min` raises on an empty argument. -/
def emptyMinMsg : String := "ValueError: min() arg is an empty sequence"

/-- Generator `zip_processors(*procs)`: initialise one cursor per stream,
advance each once, and run the merge loop.  With zero streams the initial
`min(i.next(None) for i in iters)` is Python's `min` over an empty sequence,
which raises `ValueError` as soon as the generator is first iterated. -/
def zip_processors (procs : List (List OSMObject)) :
    Except String (List (List (Option OSMObject))) :=
  match minComp (procs.map CompIter.init) with
  | none => Except.error emptyMinMsg
  | some _ => Except.ok (zipRun (procs.map CompIter.init))

/-- A stream is sorted when its records are in strictly ascending composite
key order; this is the precondition under which `zip_processors` documents
defined behaviour ("The processors must contain sorted data"). -/
def sortedByKey (l : List OSMObject) : Prop :=
  List.Pairwise (fun a b => keyLt (keyOf a) (keyOf b) = true) l

instance sortedByKey.instDec (l : List OSMObject) : Decidable (sortedByKey l) := by
  unfold sortedByKey; infer_instance

/-- The state invariant of an initialised cursor: either the stream is
exhausted (no current record, sentinel key) or the current record carries the
stored key and heads a strictly sorted remainder. -/
def CompIter.Inv (c : CompIter) : Prop :=
  (c.current = none ∧ c.rest = [] ∧ c.comp = sentinel) ∨
  (∃ o, c.current = some o ∧ c.comp = keyOf o ∧ sortedByKey (o :: c.rest))

/-- The multiset of composite keys over a family of streams. -/
def allKeys (streams : List (List OSMObject)) : List CompKey :=
  (streams.map (fun s => s.map keyOf)).flatten

/-- Modelled from the spec: an EntityMask is a set of record-type flags
restricting which types the RecordSource yields (the Python code keeps the
bitmask `entities` and tests `self._entities & osmium.osm.NODE`). -/
structure EntityMask where
  node : Bool
  way : Bool
  relation : Bool
  area : Bool
  changeset : Bool
deriving DecidableEq, Repr

/-- The mask `osmium.osm.ALL`: all record types enabled. -/
def EntityMask.ALL : EntityMask := ⟨true, true, true, true, true⟩

/-- Modelled from the spec: a configured node-location cache, either created
by the external factory (`osmium.index.create_map`) from a strategy name or
supplied as a pre-built `LocationTable` (identified abstractly by a number). -/
inductive NodeStore where
  | created (strategy : String)
  | table (id : Nat)
deriving DecidableEq, Repr

/-- Factory `osmium.index.create_map`, kept abstract. -/
def create_map (strategy : String) : NodeStore := NodeStore.created strategy

/-- Modelled from the spec: the opaque `osmium.area.AreaManager` object. -/
inductive AreaHandler where
  | manager
deriving DecidableEq, Repr

/-- The accepted values of the `storage` argument of `with_locations`: a
strategy name, a pre-built `LocationTable`, or `None`. -/
inductive StorageArg where
  | name (s : String)
  | table (t : Nat)
  | null
deriving DecidableEq, Repr

/-- Python exceptions raised at configuration time. -/
inductive PyError where
  | runtimeError (msg : String)
  | typeError (msg : String)
deriving DecidableEq, Repr

/-- The message of the RuntimeError raised by `with_locations` when nodes
are excluded from the entity mask. -/
def noNodesMsg : String := "Nodes not read from file. Cannot enable location cache."

/-- The default storage strategy of `with_locations` (keyword default
`storage='flex_mem'`). -/
def flexMem : String := "flex_mem"

/-- A sample pass-one failure message, used by a witness below. -/
def passOneBoomMsg : String := "pass one failed"

/-- A sample pass-one error, used by a witness below. -/
def passOneBoom : PyError := PyError.runtimeError passOneBoomMsg

/-- The configuration state of a `FileProcessor` as set up by `__init__`
with a well-typed filename argument: the requested entity mask plus the
mutable fields `_node_store`, `_area_handler` and `_filters`. -/
structure FileProcessor where
  entities : EntityMask
  node_store : Option NodeStore
  area_handler : Option AreaHandler
  filters : List (OSMObject → Bool)

/-- A fresh processor as left by `FileProcessor.__init__`. -/
def FileProcessor.mkNew (entities : EntityMask) : FileProcessor :=
  ⟨entities, none, none, []⟩

/-- Method `FileProcessor.with_locations`.  Python mutates `self`, and a
raise leaves the mutations performed so far in place, so a raise is modelled
as an error value carrying the processor state at the point of the raise. -/
def FileProcessor.with_locations (fp : FileProcessor) (storage : StorageArg) :
    Except (PyError × FileProcessor) FileProcessor :=
  if fp.entities.node = false then
    Except.error (PyError.runtimeError noNodesMsg, fp)
  else
    match storage with
    | StorageArg.name s => Except.ok { fp with node_store := some (create_map s) }
    | StorageArg.table t => Except.ok { fp with node_store := some (NodeStore.table t) }
    | StorageArg.null => Except.ok { fp with node_store := none }

/-- Method `FileProcessor.with_areas`: when no area handler is set, install
an `AreaManager` and, when no node store is configured yet, call
`with_locations()` with its default strategy.  The area handler is assigned
before that call, so the assignment is not rolled back when it raises. -/
def FileProcessor.with_areas (fp : FileProcessor) :
    Except (PyError × FileProcessor) FileProcessor :=
  if fp.area_handler = none then
    if fp.node_store = none then
      FileProcessor.with_locations
        { fp with area_handler := some AreaHandler.manager }
        (StorageArg.name flexMem)
    else Except.ok { fp with area_handler := some AreaHandler.manager }
  else Except.ok fp

/-- Method `FileProcessor.with_filter`: appends the stage and returns self. -/
def FileProcessor.with_filter (fp : FileProcessor) (filt : OSMObject → Bool) :
    FileProcessor :=
  { fp with filters := fp.filters ++ [filt] }

/-- The internal bookkeeping of external collaborators during iteration: node
ids recorded by the location handler and relation ids fed to the area
assembler's first-pass intake. -/
structure Bookkeeping where
  locCache : List Int
  areaMembers : List Int
deriving DecidableEq, Repr

/-- One stage of a handler chain handed to `osmium.OsmFileIterator` or
`osmium.apply`. -/
inductive Stage where
  | locations
  | filt (f : OSMObject → Bool)
  | areaFirstPass

/-- Modelled from the spec: one stage processing one record.  The location
stage (`NodeLocationsForWays` with `ignore_errors()`) records node
coordinates and never suppresses; a filter stage suppresses the record
exactly when its predicate fires, stopping propagation to later stages; the
area first-pass intake records relation membership and never suppresses. -/
def applyStage (st : Bookkeeping) (s : Stage) (o : OSMObject) :
    Bookkeeping × Bool :=
  match s with
  | Stage.locations =>
    (if o.otype = OSMType.node then
      { st with locCache := st.locCache ++ [o.id] }
     else st, true)
  | Stage.filt f => (st, !(f o))
  | Stage.areaFirstPass =>
    (if o.otype = OSMType.relation then
      { st with areaMembers := st.areaMembers ++ [o.id] }
     else st, true)

/-- Modelled from the spec: a record passes through the stages in order until
one suppresses it. -/
def runStages (stages : List Stage) (st : Bookkeeping) (o : OSMObject) :
    Bookkeeping × Bool :=
  match stages with
  | [] => (st, true)
  | s :: rest =>
    match applyStage st s o with
    | (st2, true) => runStages rest st2 o
    | (st2, false) => (st2, false)

/-- Modelled from the spec: the chain applied to every record of the source
in order; a record is yielded exactly when no stage suppressed it. -/
def runPipeline (stages : List Stage) (st : Bookkeeping) :
    List OSMObject → Bookkeeping × List OSMObject
  | [] => (st, [])
  | o :: os =>
    let r := runStages stages st o
    let rest := runPipeline stages r.1 os
    (rest.1, if r.2 then o :: rest.2 else rest.2)

/-- The handler order of the single-pass branch of `FileProcessor.__iter__`
(lines 85 to 93 of the source): the location handler — when a node store is
configured — followed by the registered filters. -/
def FileProcessor.iterStages (fp : FileProcessor) : List Stage :=
  (match fp.node_store with
   | some _ => [Stage.locations]
   | none => []) ++ fp.filters.map Stage.filt

/-- The single-pass iteration (`self._area_handler is None`):
`yield from osmium.OsmFileIterator(self._reader, *handlers, *self._filters)`
over the records the reader emits. -/
def FileProcessor.iterSingle (fp : FileProcessor) (objs : List OSMObject) :
    Bookkeeping × List OSMObject :=
  runPipeline fp.iterStages ⟨[], []⟩ objs

/-- The handler order of pass one of the two-pass branch (line 98 of the
source): `osmium.apply(rd, *self._filters, first_pass_handler())` — the
filters come first, the first-pass intake last. -/
def FileProcessor.firstPassStages (fp : FileProcessor) : List Stage :=
  fp.filters.map Stage.filt ++ [Stage.areaFirstPass]

/-- Pass one over the secondary reader, which is scoped to relations only
(`osmium.io.Reader(self._file, osmium.osm.RELATION)`). -/
def FileProcessor.firstPass (fp : FileProcessor) (relObjs : List OSMObject) :
    Bookkeeping :=
  (runPipeline fp.firstPassStages ⟨[], []⟩ relObjs).1

/-- Modelled from the spec: `osmium.BufferIterator(*self._filters)` yields
each buffered record that passes every filter (a firing filter drops it);
iterating it empties the buffer. -/
def drainBuffer (filters : List (OSMObject → Bool)) (buf : List OSMObject) :
    List OSMObject :=
  buf.filter (fun o => filters.all (fun f => !(f o)))

/-- The yield loop of the two-pass branch of `FileProcessor.__iter__` (lines
105 to 113 of the source).  `items` abstracts the primary `OsmFileIterator`
(Modelled from the spec: per raw record, whether it passes the filter chain,
the record itself, and the area records the second-pass handler stages into
the buffer while the chain processes it); `flush` abstracts the area records
staged when the primary stream is exhausted.  After yielding a record the
code drains `buffer_it` whenever it is non-empty, and after the loop it
drains once more. -/
def twoPassLoop (filters : List (OSMObject → Bool))
    (items : List (Bool × OSMObject × List OSMObject))
    (buf : List OSMObject) (flush : List OSMObject) : List OSMObject :=
  match items with
  | [] =>
    if (buf ++ flush).isEmpty then [] else drainBuffer filters (buf ++ flush)
  | (keep, o, st) :: rest =>
    if keep then
      if (buf ++ st).isEmpty then
        o :: twoPassLoop filters rest (buf ++ st) flush
      else
        o :: (drainBuffer filters (buf ++ st) ++ twoPassLoop filters rest [] flush)
    else twoPassLoop filters rest (buf ++ st) flush

/-- The outcome of the two-pass branch of `__iter__` around pass one (lines
96 to 101 of the source). -/
structure TwoPassOutcome where
  readerClosed : Bool
  passTwoStarted : Bool
  result : Except PyError (List OSMObject)

/-- The two-pass branch of `__iter__`.  `passOne` abstracts the outcome of
the synchronous `osmium.apply(...)` call over the secondary relations-only
reader (Modelled from the spec: errors during pass one propagate).  The
`try/finally` closes the secondary reader `rd` on both the normal and the
raising path, and pass two (the buffer setup and the primary loop) runs only
after a normal return of pass one. -/
def FileProcessor.iterTwoPass (fp : FileProcessor)
    (passOne : Except PyError Unit)
    (items : List (Bool × OSMObject × List OSMObject))
    (flush : List OSMObject) : TwoPassOutcome :=
  match passOne with
  | Except.error e => ⟨true, false, Except.error e⟩
  | Except.ok _ => ⟨true, true, Except.ok (twoPassLoop fp.filters items [] flush)⟩

theorem keyLt_iff {a b : CompKey} :
    keyLt a b = true ↔ (a.1 < b.1 ∨ (a.1 = b.1 ∧ a.2 < b.2)) := by
  simp [keyLt]

theorem keyLt_irrefl (a : CompKey) : keyLt a a = false := by
  simp [keyLt]

theorem keyLt_trans {a b c : CompKey} (h1 : keyLt a b = true)
    (h2 : keyLt b c = true) : keyLt a c = true := by
  obtain ⟨a1, a2⟩ := a; obtain ⟨b1, b2⟩ := b; obtain ⟨c1, c2⟩ := c
  simp only [keyLt_iff] at h1 h2 ⊢
  omega

theorem keyLt_asymm {a b : CompKey} (h : keyLt a b = true) :
    keyLt b a = false := by
  obtain ⟨a1, a2⟩ := a; obtain ⟨b1, b2⟩ := b
  simp only [keyLt, decide_eq_true_eq, decide_eq_false_iff_not] at h ⊢
  omega

theorem keyLt_total {a b : CompKey} (h1 : keyLt a b = false)
    (h2 : keyLt b a = false) : a = b := by
  obtain ⟨a1, a2⟩ := a; obtain ⟨b1, b2⟩ := b
  simp only [keyLt, decide_eq_false_iff_not] at h1 h2
  have : a1 = b1 ∧ a2 = b2 := by omega
  simp [this.1, this.2]

theorem keyLt_of_ne_of_not_lt {a b : CompKey} (h1 : keyLt a b = false)
    (h2 : a ≠ b) : keyLt b a = true := by
  cases hb : keyLt b a with
  | true => rfl
  | false => exact absurd (keyLt_total h1 hb) h2

theorem keyLe_trans {a b c : CompKey} (h1 : keyLt b a = false)
    (h2 : keyLt c b = false) : keyLt c a = false := by
  obtain ⟨a1, a2⟩ := a; obtain ⟨b1, b2⟩ := b; obtain ⟨c1, c2⟩ := c
  simp only [keyLt, decide_eq_false_iff_not] at h1 h2 ⊢
  omega

theorem keyOf_fst_lt (o : OSMObject) : (keyOf o).1 < 100 := by
  cases o with
  | mk t i p => cases t <;> simp [keyOf, TID]

theorem keyOf_lt_sentinel (o : OSMObject) :
    keyLt (keyOf o) sentinel = true := by
  simp only [keyLt_iff, sentinel]
  exact Or.inl (keyOf_fst_lt o)

theorem keyMin_eq_or (a b : CompKey) : keyMin a b = a ∨ keyMin a b = b := by
  unfold keyMin; split <;> simp

theorem keyLt_keyMin_left (a b : CompKey) : keyLt a (keyMin a b) = false := by
  unfold keyMin
  split
  · next h => exact keyLt_asymm h
  · exact keyLt_irrefl a

theorem keyLt_keyMin_right (a b : CompKey) : keyLt b (keyMin a b) = false := by
  unfold keyMin
  split
  · exact keyLt_irrefl b
  · next h => simpa using h

theorem foldl_keyMin_mem (a : CompKey) (l : List CompKey) :
    l.foldl keyMin a ∈ a :: l := by
  induction l generalizing a with
  | nil => simp
  | cons b t ih =>
    rw [List.foldl_cons]
    have h := ih (keyMin a b)
    rcases List.mem_cons.mp h with h1 | h1
    · rw [h1]
      rcases keyMin_eq_or a b with he | he <;> simp [he]
    · simp [h1]

theorem foldl_keyMin_le (a : CompKey) (l : List CompKey) :
    ∀ x ∈ a :: l, keyLt x (l.foldl keyMin a) = false := by
  induction l generalizing a with
  | nil =>
    intro x hx
    simp only [List.mem_singleton] at hx
    simp [hx, keyLt_irrefl]
  | cons b t ih =>
    intro x hx
    rw [List.foldl_cons]
    have hmin_a : keyLt a (keyMin a b) = false := keyLt_keyMin_left a b
    have hmin_b : keyLt b (keyMin a b) = false := keyLt_keyMin_right a b
    have hfold : keyLt (keyMin a b) (t.foldl keyMin (keyMin a b)) = false :=
      ih (keyMin a b) _ (List.mem_cons_self _ _)
    rcases List.mem_cons.mp hx with rfl | hx1
    · exact keyLe_trans hfold hmin_a
    rcases List.mem_cons.mp hx1 with rfl | hx2
    · exact keyLe_trans hfold hmin_b
    · exact ih (keyMin a b) x (List.mem_cons_of_mem _ hx2)

theorem minComp_mem {its : List CompIter} {k : CompKey}
    (h : minComp its = some k) : ∃ c ∈ its, c.comp = k := by
  unfold minComp at h
  cases hits : its with
  | nil => rw [hits] at h; simp at h
  | cons c0 cs =>
    rw [hits] at h
    simp only [List.map_cons, Option.some.injEq] at h
    have := foldl_keyMin_mem c0.comp (cs.map CompIter.comp)
    rw [h] at this
    rcases List.mem_cons.mp this with h1 | h1
    · exact ⟨c0, List.mem_cons_self _ _, h1.symm⟩
    · obtain ⟨c, hc, hck⟩ := List.mem_map.mp h1
      exact ⟨c, List.mem_cons_of_mem _ hc, hck⟩

theorem minComp_le {its : List CompIter} {k : CompKey}
    (h : minComp its = some k) : ∀ c ∈ its, keyLt c.comp k = false := by
  intro c hc
  unfold minComp at h
  cases hits : its with
  | nil => simp [hits] at hc
  | cons c0 cs =>
    rw [hits] at h
    simp only [List.map_cons, Option.some.injEq] at h
    rw [← h]
    apply foldl_keyMin_le
    rw [hits] at hc
    rcases List.mem_cons.mp hc with rfl | h1
    · exact List.mem_cons_self _ _
    · exact List.mem_cons_of_mem _ (List.mem_map_of_mem CompIter.comp h1)

theorem minComp_none_iff {its : List CompIter} :
    minComp its = none ↔ its = [] := by
  unfold minComp
  cases its <;> simp

theorem streamRem_load (xs : List OSMObject) :
    (CompIter.load xs).streamRem = xs := by
  cases xs <;> simp [CompIter.load, CompIter.streamRem]

theorem Inv_load {xs : List OSMObject} (h : sortedByKey xs) :
    (CompIter.load xs).Inv := by
  cases xs with
  | nil => exact Or.inl ⟨rfl, rfl, rfl⟩
  | cons x r => exact Or.inr ⟨x, rfl, rfl, h⟩

theorem Inv_advance {c : CompIter} {k : CompKey} (h : c.Inv) :
    (c.advance k).Inv := by
  unfold CompIter.advance
  split
  · rcases h with ⟨h1, h2, h3⟩ | ⟨o, h1, h2, h3⟩
    · rw [h2]; exact Or.inl ⟨rfl, rfl, rfl⟩
    · exact Inv_load h3.of_cons
  · exact h

theorem Inv_sorted_of_lt {c : CompIter} {k : CompKey} (hinv : c.Inv)
    (hc : c.comp = k) (hk : k.1 < 100) :
    ∃ o, c.current = some o ∧ keyOf o = k ∧
      c.streamRem = o :: c.rest ∧ sortedByKey (o :: c.rest) := by
  rcases hinv with ⟨h1, h2, h3⟩ | ⟨o, h1, h2, h3⟩
  · exfalso
    rw [h3] at hc
    rw [← hc] at hk
    simp [sentinel] at hk
  · exact ⟨o, h1, by rw [← h2, hc], by simp [CompIter.streamRem, h1], h3⟩

theorem streamRem_of_sentinel {c : CompIter} (hinv : c.Inv)
    (hs : ¬ c.comp.1 < 100) : c.streamRem = [] := by
  rcases hinv with ⟨h1, h2, h3⟩ | ⟨o, h1, h2, h3⟩
  · simp [CompIter.streamRem, h1, h2]
  · rw [h2] at hs
    exact absurd (keyOf_fst_lt o) hs

/-- The current record of a cursor at the minimum key agrees with looking the
key up in the records the cursor still owes. -/
theorem val_eq_find {c : CompIter} {k : CompKey} (hinv : c.Inv)
    (hle : keyLt c.comp k = false) (hk : k.1 < 100) :
    c.val k = c.streamRem.find? (fun o => keyOf o == k) := by
  unfold CompIter.val
  split
  · next hc =>
    obtain ⟨o, h1, h2, h3, _⟩ := Inv_sorted_of_lt hinv hc hk
    rw [h1, h3, List.find?_cons_of_pos _ (by simp [h2])]
  · next hc =>
    rcases hinv with ⟨h1, h2, h3⟩ | ⟨o, h1, h2, h3⟩
    · simp [CompIter.streamRem, h1, h2]
    · have hkc : keyLt k c.comp = true := keyLt_of_ne_of_not_lt hle hc
      symm
      rw [List.find?_eq_none]
      intro x hx
      have hxc : x = o ∨ keyLt c.comp (keyOf x) = true := by
        rw [CompIter.streamRem, h1] at hx
        rcases List.mem_cons.mp hx with rfl | hx2
        · exact Or.inl rfl
        · exact Or.inr (h2 ▸ (List.pairwise_cons.mp h3).1 x hx2)
      have hkx : keyLt k (keyOf x) = true := by
        rcases hxc with rfl | hlt2
        · rw [← h2]; exact hkc
        · exact keyLt_trans hkc hlt2
      simp only [beq_iff_eq]
      intro heq
      rw [heq, keyLt_irrefl] at hkx
      exact Bool.noConfusion hkx

/-- After advancing past the minimum key every record a cursor still owes has
a strictly larger key. -/
theorem advance_key_gt {c : CompIter} {k : CompKey} (hinv : c.Inv)
    (hle : keyLt c.comp k = false) (hk : k.1 < 100) :
    ∀ k2 ∈ (c.advance k).streamRem.map keyOf, keyLt k k2 = true := by
  intro k2 hk2
  unfold CompIter.advance at hk2
  by_cases hc : c.comp = k
  · rw [if_pos hc, streamRem_load] at hk2
    obtain ⟨o, h1, h2, h3, h4⟩ := Inv_sorted_of_lt hinv hc hk
    obtain ⟨x, hx, rfl⟩ := List.mem_map.mp hk2
    exact h2 ▸ (List.pairwise_cons.mp h4).1 x hx
  · rw [if_neg hc] at hk2
    have hkc : keyLt k c.comp = true := keyLt_of_ne_of_not_lt hle hc
    rcases hinv with ⟨h1, h2, h3⟩ | ⟨o, h1, h2, h3⟩
    · simp [CompIter.streamRem, h1, h2] at hk2
    · rw [CompIter.streamRem, h1] at hk2
      obtain ⟨x, hx, rfl⟩ := List.mem_map.mp hk2
      rcases List.mem_cons.mp hx with rfl | hx2
      · rw [← h2]; exact hkc
      · exact keyLt_trans hkc (h2 ▸ (List.pairwise_cons.mp h3).1 x hx2)

theorem advance_keys_subset {c : CompIter} {k k2 : CompKey}
    (h : k2 ∈ (c.advance k).streamRem.map keyOf) :
    k2 ∈ c.streamRem.map keyOf := by
  unfold CompIter.advance at h
  split at h
  · rw [streamRem_load] at h
    obtain ⟨x, hx, rfl⟩ := List.mem_map.mp h
    apply List.mem_map_of_mem
    unfold CompIter.streamRem
    exact List.mem_append_right _ hx
  · exact h

theorem advance_mem_of_ne {c : CompIter} {k k2 : CompKey} (hinv : c.Inv)
    (hle : keyLt c.comp k = false) (hk : k.1 < 100)
    (hmem : k2 ∈ c.streamRem.map keyOf) (hne : k2 ≠ k) :
    k2 ∈ (c.advance k).streamRem.map keyOf := by
  unfold CompIter.advance
  by_cases hc : c.comp = k
  · rw [if_pos hc, streamRem_load]
    obtain ⟨o, h1, h2, h3, _⟩ := Inv_sorted_of_lt hinv hc hk
    rw [h3] at hmem
    obtain ⟨x, hx, rfl⟩ := List.mem_map.mp hmem
    rcases List.mem_cons.mp hx with rfl | hx2
    · exact absurd h2 hne
    · exact List.mem_map_of_mem _ hx2
  · rw [if_neg hc]; exact hmem

/-- The lookup of a key strictly above the minimum is unchanged by advancing
the cursor past the minimum. -/
theorem find_advance_eq {c : CompIter} {k k2 : CompKey} (hinv : c.Inv)
    (hlt : keyLt k k2 = true) (hle : keyLt c.comp k = false) (hk : k.1 < 100) :
    (c.advance k).streamRem.find? (fun o => keyOf o == k2) =
      c.streamRem.find? (fun o => keyOf o == k2) := by
  unfold CompIter.advance
  by_cases hc : c.comp = k
  · rw [if_pos hc, streamRem_load]
    obtain ⟨o, h1, h2, h3, _⟩ := Inv_sorted_of_lt hinv hc hk
    rw [h3, List.find?_cons_of_neg]
    simp only [beq_iff_eq, h2]
    intro heq
    rw [heq, keyLt_irrefl] at hlt
    exact Bool.noConfusion hlt
  · rw [if_neg hc]

theorem zipRun_eq_none {its : List CompIter} (hmin : minComp its = none) :
    zipRun its = [] := by
  rw [zipRun.eq_def]
  split
  · rfl
  · next heq => simp [hmin] at heq

theorem zipRun_eq_stop {its : List CompIter} {nextid : CompKey}
    (hmin : minComp its = some nextid) (hlt : ¬ nextid.1 < 100) :
    zipRun its = [] := by
  rw [zipRun.eq_def]
  split
  · next heq => simp [hmin] at heq
  · next k heq =>
    rw [hmin] at heq
    cases heq
    rw [dif_neg hlt]

theorem zipRun_eq_cons {its : List CompIter} {nextid : CompKey}
    (hmin : minComp its = some nextid) (hlt : nextid.1 < 100) :
    zipRun its = (its.map (fun c => c.val nextid)) ::
      zipRun (its.map (fun c => c.advance nextid)) := by
  rw [zipRun.eq_def]
  split
  · next heq => simp [hmin] at heq
  · next k heq =>
    rw [hmin] at heq
    cases heq
    rw [dif_pos hlt]

theorem zipRunK_eq_none {its : List CompIter} (hmin : minComp its = none) :
    zipRunK its = [] := by
  rw [zipRunK.eq_def]
  split
  · rfl
  · next heq => simp [hmin] at heq

theorem zipRunK_eq_stop {its : List CompIter} {nextid : CompKey}
    (hmin : minComp its = some nextid) (hlt : ¬ nextid.1 < 100) :
    zipRunK its = [] := by
  rw [zipRunK.eq_def]
  split
  · next heq => simp [hmin] at heq
  · next k heq =>
    rw [hmin] at heq
    cases heq
    rw [dif_neg hlt]

theorem zipRunK_eq_cons {its : List CompIter} {nextid : CompKey}
    (hmin : minComp its = some nextid) (hlt : nextid.1 < 100) :
    zipRunK its = (nextid, its.map (fun c => c.val nextid)) ::
      zipRunK (its.map (fun c => c.advance nextid)) := by
  rw [zipRunK.eq_def]
  split
  · next heq => simp [hmin] at heq
  · next k heq =>
    rw [hmin] at heq
    cases heq
    rw [dif_pos hlt]

theorem zipRun_eq_map_snd : ∀ its : List CompIter,
    zipRun its = (zipRunK its).map Prod.snd := by
  intro its
  induction its using zipRunK.induct with
  | case1 its hmin => rw [zipRun_eq_none hmin, zipRunK_eq_none hmin]; rfl
  | case2 its nextid hmin hlt ih =>
    rw [zipRun_eq_cons hmin hlt, zipRunK_eq_cons hmin hlt, List.map_cons, ih]
  | case3 its nextid hmin hlt =>
    rw [zipRun_eq_stop hmin hlt, zipRunK_eq_stop hmin hlt]; rfl

/-- Master characterisation of the instrumented merge loop over cursors
satisfying the invariant: every yielded tuple is the per-cursor lookup of its
key, the yielded keys are pairwise distinct, and they are exactly the keys of
the records the cursors still owe. -/
theorem zipRunK_master : ∀ its : List CompIter, (∀ c ∈ its, c.Inv) →
    (∀ p ∈ zipRunK its,
        p.2 = its.map (fun c => c.streamRem.find? (fun o => keyOf o == p.1))) ∧
    ((zipRunK its).map Prod.fst).Nodup ∧
    (∀ k, k ∈ (zipRunK its).map Prod.fst ↔
        ∃ c ∈ its, k ∈ c.streamRem.map keyOf) := by
  intro its
  induction its using zipRunK.induct with
  | case1 its hmin =>
    intro _
    have hnil : its = [] := minComp_none_iff.mp hmin
    subst hnil
    rw [zipRunK_eq_none hmin]
    simp
  | case2 its nextid hmin hlt ih =>
    intro hinv
    have hle := minComp_le hmin
    have hinv2 : ∀ c ∈ its.map (fun c => c.advance nextid), c.Inv := by
      intro c hc
      obtain ⟨c0, hc0, rfl⟩ := List.mem_map.mp hc
      exact Inv_advance (hinv c0 hc0)
    obtain ⟨ihA, ihB, ihC⟩ := ih hinv2
    have hgt : ∀ k2, (∃ c ∈ its.map (fun c => c.advance nextid),
        k2 ∈ c.streamRem.map keyOf) → keyLt nextid k2 = true := by
      rintro k2 ⟨c, hc, hk2⟩
      obtain ⟨c0, hc0, rfl⟩ := List.mem_map.mp hc
      exact advance_key_gt (hinv c0 hc0) (hle c0 hc0) hlt k2 hk2
    rw [zipRunK_eq_cons hmin hlt]
    refine ⟨?_, ?_, ?_⟩
    · intro p hp
      rcases List.mem_cons.mp hp with rfl | hp2
      · exact List.map_congr_left
          (fun c hc => val_eq_find (hinv c hc) (hle c hc) hlt)
      · have hp1 : keyLt nextid p.1 = true :=
          hgt p.1 ((ihC p.1).mp (List.mem_map_of_mem Prod.fst hp2))
        rw [ihA p hp2, List.map_map]
        exact List.map_congr_left
          (fun c hc => find_advance_eq (hinv c hc) hp1 (hle c hc) hlt)
    · simp only [List.map_cons, List.nodup_cons]
      refine ⟨?_, ihB⟩
      intro hmem
      have := hgt nextid ((ihC nextid).mp hmem)
      rw [keyLt_irrefl] at this
      exact Bool.noConfusion this
    · intro k
      simp only [List.map_cons, List.mem_cons]
      constructor
      · rintro (rfl | hk)
        · obtain ⟨c0, hc0, hck⟩ := minComp_mem hmin
          obtain ⟨o, h1, h2, h3, _⟩ := Inv_sorted_of_lt (hinv c0 hc0) hck hlt
          refine ⟨c0, hc0, ?_⟩
          rw [h3, List.map_cons, h2]
          exact List.mem_cons_self _ _
        · obtain ⟨c, hc, hk2⟩ := (ihC k).mp hk
          obtain ⟨c0, hc0, rfl⟩ := List.mem_map.mp hc
          exact ⟨c0, hc0, advance_keys_subset hk2⟩
      · rintro ⟨c, hc, hk⟩
        by_cases hkn : k = nextid
        · exact Or.inl hkn
        · refine Or.inr ((ihC k).mpr ?_)
          exact ⟨c.advance nextid, List.mem_map_of_mem _ hc,
            advance_mem_of_ne (hinv c hc) (hle c hc) hlt hk hkn⟩
  | case3 its nextid hmin hlt =>
    intro hinv
    rw [zipRunK_eq_stop hmin hlt]
    simp only [List.map_nil, List.nodup_nil, List.not_mem_nil, false_iff]
    refine ⟨by intro p hp; simp at hp, trivial, ?_⟩
    rintro k ⟨c, hc, hk⟩
    have hle := minComp_le hmin c hc
    by_cases hcs : c.comp.1 < 100
    · have : keyLt c.comp nextid = true := by
        simp only [keyLt_iff]
        omega
      rw [hle] at this
      exact Bool.noConfusion this
    · rw [streamRem_of_sentinel (hinv c hc) hcs] at hk
      simp at hk

theorem Inv_init_all {streams : List (List OSMObject)}
    (hs : ∀ s ∈ streams, sortedByKey s) :
    ∀ c ∈ streams.map CompIter.init, c.Inv := by
  intro c hc
  obtain ⟨s, hs1, rfl⟩ := List.mem_map.mp hc
  exact Inv_load (hs s hs1)

theorem zip_processors_ok {streams : List (List OSMObject)}
    (hne : streams ≠ []) :
    zip_processors streams =
      Except.ok ((zipRunK (streams.map CompIter.init)).map Prod.snd) := by
  unfold zip_processors
  cases hm : minComp (streams.map CompIter.init) with
  | none =>
    exfalso
    apply hne
    have := minComp_none_iff.mp hm
    cases streams with
    | nil => rfl
    | cons s t => simp at this
  | some k => rw [zipRun_eq_map_snd]

/-- C1: for every non-empty family of streams, each sorted strictly ascending
by composite key, `zip_processors` yields, per distinct key present in any
stream, exactly one tuple of length N; slot i of the tuple for key k is
stream i's record with key k when stream i contains k and `none` otherwise.
(The source yields each tuple as a generator expression; it is modelled here
as materialised at yield time.) -/
theorem zip_processors_merge_correct (streams : List (List OSMObject))
    (hne : streams ≠ []) (hs : ∀ s ∈ streams, sortedByKey s) :
    ∃ r : List (CompKey × List (Option OSMObject)),
      zip_processors streams = Except.ok (r.map Prod.snd) ∧
      (∀ p ∈ r, p.2.length = streams.length) ∧
      (∀ p ∈ r, p.2 = streams.map (fun s => s.find? (fun o => keyOf o == p.1))) ∧
      (r.map Prod.fst).Nodup ∧
      (∀ k, k ∈ r.map Prod.fst ↔ ∃ s ∈ streams, k ∈ s.map keyOf) := by
  obtain ⟨mA, mB, mC⟩ := zipRunK_master _ (Inv_init_all hs)
  refine ⟨zipRunK (streams.map CompIter.init), zip_processors_ok hne, ?_, ?_, mB, ?_⟩
  · intro p hp
    rw [mA p hp]
    simp
  · intro p hp
    rw [mA p hp, List.map_map]
    apply List.map_congr_left
    intro s _
    show ((CompIter.init s).streamRem).find? _ = _
    rw [CompIter.init, streamRem_load]
  · intro k
    rw [mC k]
    constructor
    · rintro ⟨c, hc, hk⟩
      obtain ⟨s, hs1, rfl⟩ := List.mem_map.mp hc
      rw [CompIter.init, streamRem_load] at hk
      exact ⟨s, hs1, hk⟩
    · rintro ⟨s, hs1, hk⟩
      refine ⟨CompIter.init s, List.mem_map_of_mem _ hs1, ?_⟩
      rwa [CompIter.init, streamRem_load]

/-- Witness for C1 at the spec's scenario: streams
A = [(node,1), (node,3)] and B = [(node,2), (node,3)]. -/
theorem zip_processors_merge_correct_witness :
    ∃ r : List (CompKey × List (Option OSMObject)),
      zip_processors [[⟨.node, 1, 0⟩, ⟨.node, 3, 0⟩],
                      [⟨.node, 2, 0⟩, ⟨.node, 3, 1⟩]] =
        Except.ok (r.map Prod.snd) ∧
      (∀ p ∈ r, p.2.length = 2) ∧
      (∀ p ∈ r, p.2 = [[⟨.node, 1, 0⟩, ⟨.node, 3, 0⟩],
                       [⟨.node, 2, 0⟩, ⟨.node, 3, 1⟩]].map
          (fun s => s.find? (fun o => keyOf o == p.1))) ∧
      (r.map Prod.fst).Nodup ∧
      (∀ k, k ∈ r.map Prod.fst ↔
        ∃ s ∈ [[⟨.node, 1, 0⟩, ⟨.node, 3, 0⟩],
               [⟨.node, 2, 0⟩, ⟨.node, 3, 1⟩]], k ∈ s.map keyOf) := by
  have h := zip_processors_merge_correct
    [[⟨.node, 1, 0⟩, ⟨.node, 3, 0⟩], [⟨.node, 2, 0⟩, ⟨.node, 3, 1⟩]]
    (by decide) (by decide)
  obtain ⟨r, h1, h2, h3, h4, h5⟩ := h
  exact ⟨r, h1, fun p hp => by rw [h2 p hp]; rfl, h3, h4, h5⟩

/-- C3 counterexample: with zero input streams `zip_processors` does not
terminate cleanly with an empty output; iterating it raises `ValueError`
because `min()` is applied to an empty sequence of cursors. -/
theorem zip_processors_empty_counterexample :
    ¬ zip_processors [] = Except.ok [] := by
  simp [zip_processors, minComp]

/-- C3 amended: with zero input streams, iterating the generator raises
`ValueError` (from `min` over an empty argument) instead of yielding
anything. -/
theorem zip_processors_empty_raises :
    zip_processors [] = Except.error emptyMinMsg := rfl

/-- C4: over non-empty finite sorted streams the merge terminates (it is a
total function into finite lists) and yields exactly as many tuples as there
are distinct composite keys across all streams; the sentinel used for the
termination test is strictly larger than every real key. -/
theorem zip_processors_step_count (streams : List (List OSMObject))
    (hne : streams ≠ []) (hs : ∀ s ∈ streams, sortedByKey s) :
    (∀ o : OSMObject, keyLt (keyOf o) sentinel = true) ∧
    ∃ out, zip_processors streams = Except.ok out ∧
      out.length = (allKeys streams).dedup.length := by
  refine ⟨keyOf_lt_sentinel, ?_⟩
  obtain ⟨_, mB, mC⟩ := zipRunK_master _ (Inv_init_all hs)
  refine ⟨(zipRunK (streams.map CompIter.init)).map Prod.snd,
    zip_processors_ok hne, ?_⟩
  have hperm : ((zipRunK (streams.map CompIter.init)).map Prod.fst).Perm
      (allKeys streams).dedup := by
    rw [List.perm_ext_iff_of_nodup mB (List.nodup_dedup _)]
    intro k
    rw [mC k, List.mem_dedup]
    unfold allKeys
    rw [List.mem_flatten]
    constructor
    · rintro ⟨c, hc, hk⟩
      obtain ⟨s, hs1, rfl⟩ := List.mem_map.mp hc
      rw [CompIter.init, streamRem_load] at hk
      exact ⟨s.map keyOf, List.mem_map_of_mem _ hs1, hk⟩
    · rintro ⟨l, hl, hk⟩
      obtain ⟨s, hs1, rfl⟩ := List.mem_map.mp hl
      refine ⟨CompIter.init s, List.mem_map_of_mem _ hs1, ?_⟩
      rwa [CompIter.init, streamRem_load]
  calc ((zipRunK (streams.map CompIter.init)).map Prod.snd).length
      = ((zipRunK (streams.map CompIter.init)).map Prod.fst).length := by
        rw [List.length_map, List.length_map]
    _ = (allKeys streams).dedup.length := hperm.length_eq

/-- Witness for C4: two streams with three distinct keys in total. -/
theorem zip_processors_step_count_witness :
    (∀ o : OSMObject, keyLt (keyOf o) sentinel = true) ∧
    ∃ out, zip_processors [[⟨.node, 1, 0⟩, ⟨.node, 3, 0⟩],
                           [⟨.node, 2, 0⟩, ⟨.node, 3, 1⟩]] = Except.ok out ∧
      out.length = (allKeys [[⟨.node, 1, 0⟩, ⟨.node, 3, 0⟩],
                             [⟨.node, 2, 0⟩, ⟨.node, 3, 1⟩]]).dedup.length :=
  zip_processors_step_count _ (by decide) (by decide)

theorem with_locations_err {fp : FileProcessor} (storage : StorageArg)
    (h : fp.entities.node = false) :
    fp.with_locations storage =
      Except.error (PyError.runtimeError noNodesMsg, fp) := by
  unfold FileProcessor.with_locations
  rw [if_pos h]

/-- C6: enabling the location cache on a processor whose entity mask excludes
node records raises `RuntimeError` at configuration time for every storage
argument, carrying the processor state unchanged; no record of the source is
involved (the function does not consume the stream, and the iteration
functions of this model are total and return no such error). -/
theorem with_locations_precondition (fp : FileProcessor) (storage : StorageArg)
    (h : fp.entities.node = false) :
    fp.with_locations storage =
      Except.error (PyError.runtimeError noNodesMsg, fp) :=
  with_locations_err storage h

/-- Witness for C6: a way-and-relation-only processor. -/
theorem with_locations_precondition_witness :
    (FileProcessor.mkNew ⟨false, true, true, false, false⟩).with_locations
        StorageArg.null =
      Except.error (PyError.runtimeError noNodesMsg,
        FileProcessor.mkNew ⟨false, true, true, false, false⟩) :=
  with_locations_precondition _ StorageArg.null rfl

/-- C8: `with_areas` is idempotent — whenever a call succeeds, a second call
returns the exact same configuration (entity mask, node store, area handler
and filters are all part of the state) — and when neither an area handler
nor a location cache is configured before the call, the default `flex_mem`
cache is enabled implicitly. -/
theorem with_areas_idempotent (fp fp2 : FileProcessor)
    (h : fp.with_areas = Except.ok fp2) :
    fp2.with_areas = Except.ok fp2 ∧
    (fp.area_handler = none → fp.node_store = none →
      fp2.node_store = some (create_map flexMem)) := by
  obtain ⟨ents, ns, ah, fl⟩ := fp
  cases ah with
  | some a =>
    simp only [FileProcessor.with_areas, reduceCtorEq, if_false,
      Except.ok.injEq] at h
    subst h
    constructor
    · simp [FileProcessor.with_areas]
    · intro hcontra
      simp at hcontra
  | none =>
    cases ns with
    | some n =>
      simp only [FileProcessor.with_areas, if_true, reduceCtorEq, if_false,
        Except.ok.injEq] at h
      rw [← h]
      constructor
      · simp [FileProcessor.with_areas]
      · intro _ hcontra
        simp at hcontra
    | none =>
      simp only [FileProcessor.with_areas, FileProcessor.with_locations,
        if_true] at h
      split at h
      · exact absurd h (by simp)
      · simp only [Except.ok.injEq] at h
        rw [← h]
        constructor
        · simp [FileProcessor.with_areas]
        · intro _ _
          rfl

/-- Witness for C8: a fresh processor over the full entity mask. -/
theorem with_areas_idempotent_witness :
    (⟨EntityMask.ALL, some (create_map flexMem), some AreaHandler.manager, []⟩ :
        FileProcessor).with_areas =
      Except.ok ⟨EntityMask.ALL, some (create_map flexMem),
        some AreaHandler.manager, []⟩ ∧
    ((FileProcessor.mkNew EntityMask.ALL).area_handler = none →
     (FileProcessor.mkNew EntityMask.ALL).node_store = none →
     (⟨EntityMask.ALL, some (create_map flexMem), some AreaHandler.manager, []⟩ :
        FileProcessor).node_store = some (create_map flexMem)) :=
  with_areas_idempotent (FileProcessor.mkNew EntityMask.ALL) _ rfl

/-- C10 counterexample: with a mask excluding nodes and no cache configured,
`with_areas` raises, but the processor state carried at the raise already
has the area handler installed — the failed call does not leave the
processor without an area handler. -/
theorem with_areas_error_state_counterexample :
    (FileProcessor.mkNew ⟨false, true, true, false, false⟩).with_areas =
      Except.error (PyError.runtimeError noNodesMsg,
        ⟨⟨false, true, true, false, false⟩, none, some AreaHandler.manager, []⟩) ∧
    (⟨⟨false, true, true, false, false⟩, none, some AreaHandler.manager, []⟩ :
        FileProcessor).area_handler ≠ none := by
  constructor
  · rfl
  · simp

/-- C10 amended: with a node-excluding mask, no cache and no area handler,
`with_areas` raises exactly the error that `with_locations` raises directly,
and the processor state at the raise has the area handler already installed
(the assignment preceding the implicit `with_locations()` call is not rolled
back), all other fields unchanged. -/
theorem with_areas_error_state_amended (fp : FileProcessor)
    (h1 : fp.entities.node = false) (h2 : fp.node_store = none)
    (h3 : fp.area_handler = none) :
    ∃ e fpa fpl,
      fp.with_areas = Except.error (e, fpa) ∧
      fp.with_locations (StorageArg.name flexMem) = Except.error (e, fpl) ∧
      fpa = { fp with area_handler := some AreaHandler.manager } ∧
      fpa.area_handler = some AreaHandler.manager ∧
      fpl = fp := by
  refine ⟨PyError.runtimeError noNodesMsg,
    { fp with area_handler := some AreaHandler.manager }, fp, ?_, ?_, rfl, rfl, rfl⟩
  · unfold FileProcessor.with_areas
    rw [if_pos h3, if_pos h2]
    exact with_locations_err _ h1
  · exact with_locations_err _ h1

/-- Witness for C10 at a fresh way-and-relation-only processor. -/
theorem with_areas_error_state_amended_witness :
    ∃ e fpa fpl,
      (FileProcessor.mkNew ⟨false, true, true, false, false⟩).with_areas =
        Except.error (e, fpa) ∧
      (FileProcessor.mkNew ⟨false, true, true, false, false⟩).with_locations
          (StorageArg.name flexMem) = Except.error (e, fpl) ∧
      fpa = { FileProcessor.mkNew ⟨false, true, true, false, false⟩ with
              area_handler := some AreaHandler.manager } ∧
      fpa.area_handler = some AreaHandler.manager ∧
      fpl = FileProcessor.mkNew ⟨false, true, true, false, false⟩ :=
  with_areas_error_state_amended _ rfl rfl rfl

theorem runStages_filt (fs : List (OSMObject → Bool)) (st : Bookkeeping)
    (o : OSMObject) :
    runStages (fs.map Stage.filt) st o = (st, fs.all (fun f => !(f o))) := by
  induction fs generalizing st with
  | nil => rfl
  | cons f fs ih =>
    simp only [List.map_cons, runStages, applyStage, List.all_cons]
    cases hf : f o with
    | true => simp
    | false => simp [ih st]

theorem runStages_loc_filt (fs : List (OSMObject → Bool)) (st : Bookkeeping)
    (o : OSMObject) :
    runStages (Stage.locations :: fs.map Stage.filt) st o =
      ((if o.otype = OSMType.node then
          { st with locCache := st.locCache ++ [o.id] }
        else st),
       fs.all (fun f => !(f o))) := by
  show runStages (fs.map Stage.filt)
      (if o.otype = OSMType.node then
        { st with locCache := st.locCache ++ [o.id] }
       else st) o = _
  rw [runStages_filt]

theorem runStages_filt_area (fs : List (OSMObject → Bool)) (st : Bookkeeping)
    (o : OSMObject) :
    runStages (fs.map Stage.filt ++ [Stage.areaFirstPass]) st o =
      ((if fs.all (fun f => !(f o)) then
          (if o.otype = OSMType.relation then
            { st with areaMembers := st.areaMembers ++ [o.id] }
           else st)
        else st),
       fs.all (fun f => !(f o))) := by
  induction fs generalizing st with
  | nil => simp [runStages, applyStage]
  | cons f fs ih =>
    simp only [List.cons_append, List.map_cons, runStages, applyStage,
      List.all_cons]
    by_cases hf : f o = true
    · simp [hf]
    · have hf2 : f o = false := by
        cases hx : f o with
        | true => exact absurd hx hf
        | false => rfl
      simp [hf2, ih st]

theorem runPipeline_no_stages (st : Bookkeeping) (objs : List OSMObject) :
    runPipeline [] st objs = (st, objs) := by
  induction objs with
  | nil => rfl
  | cons o os ih => simp [runPipeline, runStages, ih]

theorem iter_locCache (fs : List (OSMObject → Bool)) (st : Bookkeeping)
    (objs : List OSMObject) :
    (runPipeline (Stage.locations :: fs.map Stage.filt) st objs).1.locCache =
      st.locCache ++
        (objs.filter (fun o => o.otype == OSMType.node)).map (fun o => o.id) := by
  induction objs generalizing st with
  | nil => simp [runPipeline]
  | cons o os ih =>
    simp only [runPipeline, runStages_loc_filt]
    by_cases hn : o.otype = OSMType.node
    · rw [if_pos hn, ih]
      simp [List.filter_cons, hn]
    · rw [if_neg hn, ih]
      simp [List.filter_cons, hn]

theorem firstPass_members (fs : List (OSMObject → Bool)) (st : Bookkeeping)
    (objs : List OSMObject) :
    (runPipeline (fs.map Stage.filt ++ [Stage.areaFirstPass]) st objs).1.areaMembers =
      st.areaMembers ++
        (objs.filter (fun o =>
          fs.all (fun f => !(f o)) && (o.otype == OSMType.relation))).map
          (fun o => o.id) := by
  induction objs generalizing st with
  | nil => simp [runPipeline]
  | cons o os ih =>
    simp only [runPipeline, runStages_filt_area]
    by_cases hk : fs.all (fun f => !(f o)) = true
    · rw [if_pos hk]
      by_cases hr : o.otype = OSMType.relation
      · rw [if_pos hr, ih]
        simp [List.filter_cons, hk, hr]
      · rw [if_neg hr, ih]
        simp [List.filter_cons, hk, hr]
    · rw [if_neg hk, ih]
      have hk2 : fs.all (fun f => !(f o)) = false := by
        cases hx : fs.all (fun f => !(f o)) with
        | true => exact absurd hx hk
        | false => rfl
      simp [List.filter_cons, hk2]

/-- C2 counterexample: a `FileProcessor` with one filter that suppresses
relations.  In pass one, the suppressed relation with id 5 never reaches the
area first-pass intake — the source applies the filters before the handler
(`osmium.apply(rd, *self._filters, first_pass_handler())`) — so it does not
count toward area membership, contrary to the claim. -/
theorem filter_firstpass_membership_counterexample :
    ((FileProcessor.mkNew EntityMask.ALL).with_filter
        (fun o => o.otype == OSMType.relation)).firstPass
      [⟨OSMType.relation, 5, 0⟩] = ⟨[], []⟩ ∧
    (5 : Int) ∉ (((FileProcessor.mkNew EntityMask.ALL).with_filter
        (fun o => o.otype == OSMType.relation)).firstPass
      [⟨OSMType.relation, 5, 0⟩]).areaMembers := by
  refine ⟨rfl, ?_⟩
  show (5 : Int) ∉ ([] : List Int)
  simp

/-- C2 amended: a record suppressed by a filter still populates the location
cache, because the location handler precedes the filters in the iteration
chain of `__iter__` — the cache receives every node of the source regardless
of the filters; but in pass one the filters precede the first-pass intake, so
area membership records exactly the relations that pass every filter, and a
suppressed relation does not count. -/
theorem filter_bookkeeping_amended (fp : FileProcessor) (ns : NodeStore)
    (objs relObjs : List OSMObject) (h : fp.node_store = some ns) :
    (fp.iterSingle objs).1.locCache =
      (objs.filter (fun o => o.otype == OSMType.node)).map (fun o => o.id) ∧
    (fp.firstPass relObjs).areaMembers =
      (relObjs.filter (fun o =>
        fp.filters.all (fun f => !(f o)) && (o.otype == OSMType.relation))).map
        (fun o => o.id) := by
  constructor
  · unfold FileProcessor.iterSingle FileProcessor.iterStages
    rw [h]
    simpa using iter_locCache fp.filters ⟨[], []⟩ objs
  · unfold FileProcessor.firstPass FileProcessor.firstPassStages
    simpa using firstPass_members fp.filters ⟨[], []⟩ relObjs

/-- Witness for C2: a processor with a node store and a relation-suppressing
filter, a node record in the main pass and a relation record in pass one. -/
theorem filter_bookkeeping_amended_witness :
    ((⟨EntityMask.ALL, some (create_map flexMem), none,
        [fun o => o.otype == OSMType.relation]⟩ : FileProcessor).iterSingle
      [⟨OSMType.node, 7, 0⟩, ⟨OSMType.relation, 5, 0⟩]).1.locCache =
      (([⟨OSMType.node, 7, 0⟩, ⟨OSMType.relation, 5, 0⟩] : List OSMObject).filter
        (fun o => o.otype == OSMType.node)).map (fun o => o.id) ∧
    ((⟨EntityMask.ALL, some (create_map flexMem), none,
        [fun o => o.otype == OSMType.relation]⟩ : FileProcessor).firstPass
      [⟨OSMType.relation, 5, 0⟩]).areaMembers =
      (([⟨OSMType.relation, 5, 0⟩] : List OSMObject).filter (fun o =>
        ([fun o => o.otype == OSMType.relation] : List (OSMObject → Bool)).all
            (fun f => !(f o)) &&
          (o.otype == OSMType.relation))).map (fun o => o.id) :=
  filter_bookkeeping_amended _ (create_map flexMem) _ _ rfl

/-- C9: in a single-pass run with no registered filters and no location
cache, the iterator yields exactly the records the source emits, in content
and order. -/
theorem iter_single_pass_identity (fp : FileProcessor) (objs : List OSMObject)
    (h1 : fp.filters = []) (h2 : fp.node_store = none)
    (h3 : fp.area_handler = none) :
    (fp.iterSingle objs).2 = objs := by
  unfold FileProcessor.iterSingle FileProcessor.iterStages
  rw [h1, h2]
  simp [runPipeline_no_stages]

/-- Witness for C9 on a fresh processor and a two-record source. -/
theorem iter_single_pass_identity_witness :
    ((FileProcessor.mkNew EntityMask.ALL).iterSingle
      [⟨OSMType.node, 1, 0⟩, ⟨OSMType.way, 2, 0⟩]).2 =
      [⟨OSMType.node, 1, 0⟩, ⟨OSMType.way, 2, 0⟩] :=
  iter_single_pass_identity _ _ rfl rfl rfl

/-- C5 counterexample: one primary way record whose processing stages one
area record, under a filter chain that suppresses areas.  The staged area is
removed at drain time by `BufferIterator(*self._filters)` instead of being
yielded, so not all currently staged area records are yielded. -/
theorem staging_drain_counterexample :
    twoPassLoop [fun o => o.otype == OSMType.area]
      [(true, ⟨OSMType.way, 1, 0⟩, [⟨OSMType.area, 1, 0⟩])] [] [] =
      [⟨OSMType.way, 1, 0⟩] ∧
    (⟨OSMType.area, 1, 0⟩ : OSMObject) ∉
      twoPassLoop [fun o => o.otype == OSMType.area]
        [(true, ⟨OSMType.way, 1, 0⟩, [⟨OSMType.area, 1, 0⟩])] [] [] := by
  refine ⟨rfl, ?_⟩
  show (⟨OSMType.area, 1, 0⟩ : OSMObject) ∉ [(⟨OSMType.way, 1, 0⟩ : OSMObject)]
  simp

/-- C5 amended: in a two-pass run in which every primary record passes the
filter chain, the staging buffer is emptied immediately after each primary
record is yielded — the staged records that pass the filter chain are
yielded there, before the next primary record, the rest are dropped — and
the buffer is drained exactly once more after the primary stream is
exhausted. -/
theorem staging_drain_amended (filters : List (OSMObject → Bool))
    (items : List (Bool × OSMObject × List OSMObject))
    (flush : List OSMObject) (hkeep : ∀ i ∈ items, i.1 = true) :
    twoPassLoop filters items [] flush =
      (items.map (fun i => i.2.1 :: drainBuffer filters i.2.2)).flatten ++
        drainBuffer filters flush := by
  induction items with
  | nil =>
    cases flush with
    | nil => rfl
    | cons x t => rfl
  | cons i rest ih =>
    obtain ⟨keep, o, st⟩ := i
    have hk : keep = true := hkeep _ (List.mem_cons_self _ _)
    subst hk
    have ihr := ih (fun j hj => hkeep j (List.mem_cons_of_mem _ hj))
    simp only [twoPassLoop, if_true, List.nil_append, List.map_cons,
      List.flatten_cons, List.cons_append]
    cases hst : st.isEmpty with
    | true =>
      have hst2 : st = [] := by
        cases st with
        | nil => rfl
        | cons a t => simp [List.isEmpty] at hst
      subst hst2
      simp only [if_true]
      rw [ihr]
      simp [drainBuffer]
    | false =>
      simp only [hst, Bool.false_eq_true, if_false]
      rw [ihr]
      simp [List.append_assoc]

/-- Witness for C5: two primary records, each staging one area record, plus
one record flushed at end of stream, with no filters. -/
theorem staging_drain_amended_witness :
    twoPassLoop []
      [(true, ⟨OSMType.way, 1, 0⟩, [⟨OSMType.area, 1, 0⟩]),
       (true, ⟨OSMType.way, 2, 0⟩, [])]
      [] [⟨OSMType.area, 9, 0⟩] =
      (([(true, ⟨OSMType.way, 1, 0⟩, [⟨OSMType.area, 1, 0⟩]),
         (true, ⟨OSMType.way, 2, 0⟩, [])] :
          List (Bool × OSMObject × List OSMObject)).map
        (fun i => i.2.1 :: drainBuffer [] i.2.2)).flatten ++
        drainBuffer [] [⟨OSMType.area, 9, 0⟩] :=
  staging_drain_amended [] _ _ (by decide)

/-- C7: the secondary relations-only reader of pass one is closed on every
exit path — normal completion and error alike — and an error raised during
pass one propagates to the caller unchanged, with pass two never started. -/
theorem two_pass_reader_closed (fp : FileProcessor)
    (passOne : Except PyError Unit)
    (items : List (Bool × OSMObject × List OSMObject))
    (flush : List OSMObject) :
    (fp.iterTwoPass passOne items flush).readerClosed = true ∧
    ∀ e, passOne = Except.error e →
      (fp.iterTwoPass passOne items flush).passTwoStarted = false ∧
      (fp.iterTwoPass passOne items flush).result = Except.error e := by
  cases passOne with
  | error e =>
    exact ⟨rfl, fun e2 he => by cases he; exact ⟨rfl, rfl⟩⟩
  | ok u =>
    exact ⟨rfl, fun e2 he => by cases he⟩


/-- Witness for C7: a fresh processor whose pass one raises. -/
theorem two_pass_reader_closed_witness :
    ((FileProcessor.mkNew EntityMask.ALL).iterTwoPass
        (Except.error passOneBoom) [] []).readerClosed = true ∧
    ((FileProcessor.mkNew EntityMask.ALL).iterTwoPass
        (Except.error passOneBoom) [] []).passTwoStarted = false ∧
    ((FileProcessor.mkNew EntityMask.ALL).iterTwoPass
        (Except.error passOneBoom) [] []).result =
      Except.error passOneBoom := by
  obtain ⟨h1, h2⟩ := two_pass_reader_closed (FileProcessor.mkNew EntityMask.ALL)
    (Except.error passOneBoom) [] []
  obtain ⟨h3, h4⟩ := h2 passOneBoom rfl
  exact ⟨h1, h3, h4⟩
